import Mathlib

/-!
Verification of the correlation-matrix CSV-to-JSON reducer
(`convert_csv_to_json.py`).

The script reads a table (list of rows, each a list of string cells),
takes `headers = rows[0][1:]`, and for each data row `i` (0-based over
`rows[1:]`) sets `correlations[row[0]] = {}` and then, for each cell
`row[1:][j]` that is non-blank and parses as a Python float, looks up
`headers[j]` (an uncaught `IndexError` when out of bounds, since the
`try` only catches `ValueError`) and stores the value when `j > i`.
The embedding below mirrors that control flow exactly; Python floats
are idealised as exact rationals (plus the inf, -inf and nan literals), and
Python dicts as association lists with in-place overwrite, which is
Python's dict insertion-order behaviour.
-/

namespace CorrelCsv

/-- Python ASCII whitespace characters recognised by str.strip() and float(). -/
def isPyWs (c : Char) : Bool :=
  c = ' ' || c = '\t' || c = '\n' || c = '\r' || c = '\x0b' || c = '\x0c'

/-- Drop leading whitespace characters. -/
def dropWs : List Char → List Char
  | [] => []
  | c :: rest => if isPyWs c then dropWs rest else c :: rest

/-- Characters of the result of Python str.strip(): drop leading and trailing whitespace. -/
def pyStripChars (l : List Char) : List Char :=
  (dropWs ((dropWs l).reverse)).reverse

/-- Python str.strip(). -/
def pyStrip (s : String) : String :=
  String.mk (pyStripChars s.data)

/-- The guard `if value and value.strip():` of the script. -/
def cellNonBlank (value : String) : Bool :=
  (value != "") && (pyStrip value != "")

/-- Longest leading run of decimal digits, and the remainder. -/
def takeDigits : List Char → List Char × List Char
  | [] => ([], [])
  | c :: rest =>
    if c.isDigit then
      match takeDigits rest with
      | (ds, r) => (c :: ds, r)
    else ([], c :: rest)

/-- Numeric value of a digit string. -/
def digitsToNat (ds : List Char) : Nat :=
  ds.foldl (fun n c => n * 10 + (c.toNat - 48)) 0

/-- The rational m · 10 ^ e, built with a single normalisation. -/
def ratOfSci (m : Int) (e : Int) : ℚ :=
  if 0 ≤ e then mkRat (m * (10 : Int) ^ e.toNat) 1 else mkRat m ((10 : Nat) ^ (-e).toNat)

/-- Optional exponent part of a float literal. -/
def parseExp : List Char → Option (Int × List Char)
  | [] => some (0, [])
  | c :: rest =>
    if c = 'e' || c = 'E' then
      match rest with
      | '+' :: r1 =>
        match takeDigits r1 with
        | ([], _) => none
        | (ds, r2) => some ((digitsToNat ds : Int), r2)
      | '-' :: r1 =>
        match takeDigits r1 with
        | ([], _) => none
        | (ds, r2) => some (-(digitsToNat ds : Int), r2)
      | r1 =>
        match takeDigits r1 with
        | ([], _) => none
        | (ds, r2) => some ((digitsToNat ds : Int), r2)
    else some (0, c :: rest)

/-- Mantissa (integer part, optional fraction) with optional exponent, as a
scientific pair: the value is mantissa · 10 ^ exponent. -/
def parseNumber (cs : List Char) : Option (Int × Int × List Char) :=
  match takeDigits cs with
  | (ip, r1) =>
    match r1 with
    | '.' :: r2 =>
      match takeDigits r2 with
      | (fp, r3) =>
        if ip = [] && fp = [] then none
        else
          match parseExp r3 with
          | none => none
          | some (e, r4) => some ((digitsToNat (ip ++ fp) : Int), e - fp.length, r4)
    | _ =>
      if ip = [] then none
      else
        match parseExp r1 with
        | none => none
        | some (e, r2) => some ((digitsToNat ip : Int), e, r2)

/-- Result of Python float(): a finite value (idealised as an exact rational)
or one of the inf, -inf and nan literals. -/
inductive PyVal where
  | num (q : ℚ)
  | inf
  | ninf
  | nan
deriving DecidableEq, Repr

/-- Case-insensitive match of a literal word, returning the remainder on success. -/
def matchCI : List Char → List Char → Option (List Char)
  | [], cs => some cs
  | _ :: _, [] => none
  | p :: ps, c :: cs => if c.toLower = p then matchCI ps cs else none

/-- Body of Python float() after whitespace stripping and sign handling. -/
def pyFloatSigned (neg : Bool) (cs : List Char) : Option PyVal :=
  match matchCI ['i', 'n', 'f', 'i', 'n', 'i', 't', 'y'] cs with
  | some r => if dropWs r = [] then some (if neg then PyVal.ninf else PyVal.inf) else none
  | none =>
    match matchCI ['i', 'n', 'f'] cs with
    | some r => if dropWs r = [] then some (if neg then PyVal.ninf else PyVal.inf) else none
    | none =>
      match matchCI ['n', 'a', 'n'] cs with
      | some r => if dropWs r = [] then some PyVal.nan else none
      | none =>
        match parseNumber cs with
        | some (m, e, r) =>
          if dropWs r = [] then some (PyVal.num (ratOfSci (if neg then -m else m) e)) else none
        | none => none

/-- Python float() on a character list: strip leading whitespace, read the sign,
then the literal, then require only trailing whitespace. -/
def pyFloatAux (cs : List Char) : Option PyVal :=
  match dropWs cs with
  | '+' :: r => pyFloatSigned false r
  | '-' :: r => pyFloatSigned true r
  | r => pyFloatSigned false r

/-- Python float(s); none models a ValueError. (Digit-group underscores of
Python 3.6+ are not modelled; no claim concerns them.) -/
def pyFloat? (s : String) : Option PyVal :=
  pyFloatAux s.data

/-- The one uncaught Python exception the loop can raise: IndexError, from
`row[0]` on an empty row or `headers[j]` past the end of the header list.
The specification names this condition InputShapeError. -/
inductive PyErr where
  | indexError
deriving DecidableEq, Repr

/-- Python dict assignment d[k] = v: overwrite in place (keeping the key's
insertion position) or append a new key at the end. -/
def dictInsert {α : Type} (d : List (String × α)) (k : String) (v : α) : List (String × α) :=
  match d with
  | [] => [(k, v)]
  | (k1, v1) :: rest => if k1 = k then (k, v) :: rest else (k1, v1) :: dictInsert rest k v

/-- Python dict lookup. -/
def dictGet? {α : Type} (d : List (String × α)) (k : String) : Option α :=
  match d with
  | [] => none
  | (k1, v1) :: rest => if k1 = k then some v1 else dictGet? rest k

/-- The keys of an association list, in order. -/
def dictKeys {α : Type} (d : List (String × α)) : List String :=
  d.map Prod.fst

/-- The keys of an association list are pairwise distinct. -/
def dictNodupKeys {α : Type} (d : List (String × α)) : Prop :=
  (dictKeys d).Nodup

/-- One iteration of the script's inner loop: the cell at intra-row position j
of data row i. Mirrors the source order: blank guard, float parse, `headers[j]`
lookup (IndexError escapes the `except ValueError`), then the `j > i` test. -/
def processCell (headers : List String) (i j : Nat) (value : String)
    (inner : List (String × PyVal)) : Except PyErr (List (String × PyVal)) :=
  if cellNonBlank value then
    match pyFloat? value with
    | some v =>
      match headers.get? j with
      | some other => Except.ok (if i < j then dictInsert inner other v else inner)
      | none => Except.error PyErr.indexError
    | none => Except.ok inner
  else Except.ok inner

/-- The script's inner loop over the cells of row[1:], from position j onwards. -/
def processCells (headers : List String) (i : Nat) (cells : List String) (j : Nat)
    (inner : List (String × PyVal)) : Except PyErr (List (String × PyVal)) :=
  match cells with
  | [] => Except.ok inner
  | c :: rest =>
    match processCell headers i j c inner with
    | Except.ok inner1 => processCells headers i rest (j + 1) inner1
    | Except.error e => Except.error e

/-- The script's outer loop over data rows, starting at data-row index i.
Each row sets `correlations[row[0]] = {}` and then fills that inner dict. -/
def processRows (headers : List String) (i : Nat) (rows : List (List String))
    (corr : List (String × List (String × PyVal))) :
    Except PyErr (List (String × List (String × PyVal))) :=
  match rows with
  | [] => Except.ok corr
  | [] :: _ => Except.error PyErr.indexError
  | (name :: cells) :: rest =>
    match processCells headers i cells 0 [] with
    | Except.ok inner =>
      processRows headers (i + 1) rest (dictInsert (dictInsert corr name []) name inner)
    | Except.error e => Except.error e

/-- The output document: the node list and the sparse upper-triangular map. -/
structure Doc where
  nodes : List String
  correlations : List (String × List (String × PyVal))
deriving DecidableEq, Repr

/-- The whole script on an in-memory table: `headers = rows[0][1:]`, then the
row loop; the output document exists only when no exception was raised. -/
def reduce (table : List (List String)) : Except PyErr Doc :=
  match table with
  | [] => Except.error PyErr.indexError
  | headerRow :: dataRows =>
    match processRows (headerRow.drop 1) 0 dataRows [] with
    | Except.ok corr => Except.ok { nodes := headerRow.drop 1, correlations := corr }
    | Except.error e => Except.error e

/-- The first index of a in l (length of l when a is absent): the index
function of the specification. -/
def firstIdx (l : List String) (a : String) : Nat :=
  match l with
  | [] => 0
  | b :: rest => if b = a then 0 else firstIdx rest a + 1

/-- Executable check that data row t starts with node t, for every t where
both exist: the alignment of row labels with the header that the data model
assumes but the script never validates. -/
def alignedChk (headers : List String) (dataRows : List (List String)) : Bool :=
  (List.range dataRows.length).all fun t =>
    match dataRows.get? t, headers.get? t with
    | some r, some b => r.head? == some b
    | _, _ => true

/-- Executable check that every data row label is one of the node names. -/
def labelsChk (headers : List String) (dataRows : List (List String)) : Bool :=
  dataRows.all fun r =>
    match r.head? with
    | some x => headers.contains x
    | none => true

/-- The Scenario A header row. -/
def headerRowA : List String := ["", "A", "B", "C"]

/-- The Scenario A data rows. -/
def dataRowsA : List (List String) := [["A", "", "0.5", "0.2"], ["B", "", "", "0.9"],
  ["C", "", "", "", ""]]

/-- The document the script produces on Scenario A. -/
def docA : Doc :=
  Doc.mk ["A", "B", "C"]
    [("A", [("B", PyVal.num (mkRat 1 2)), ("C", PyVal.num (mkRat 1 5))]),
     ("B", [("C", PyVal.num (mkRat 9 10))]),
     ("C", [])]

/-- C1: on the concrete Scenario A table (header `,A,B,C`; rows `A,,0.5,0.2`,
`B,,,0.9`, `C,,,,`) the reducer returns nodes `["A","B","C"]` and correlations
`A ↦ {B ↦ 0.5, C ↦ 0.2}`, `B ↦ {C ↦ 0.9}`, `C ↦ {}`. -/
theorem C1_scenario_a :
    reduce [["", "A", "B", "C"], ["A", "", "0.5", "0.2"], ["B", "", "", "0.9"],
        ["C", "", "", "", ""]] =
      Except.ok
        { nodes := ["A", "B", "C"],
          correlations :=
            [("A", [("B", PyVal.num (mkRat 1 2)), ("C", PyVal.num (mkRat 1 5))]),
             ("B", [("C", PyVal.num (mkRat 9 10))]),
             ("C", [])] } := by
  rfl

theorem dictGet?_insert_self {α : Type} (d : List (String × α)) (k : String) (v : α) :
    dictGet? (dictInsert d k v) k = some v := by
  induction d with
  | nil => simp [dictInsert, dictGet?]
  | cons p rest ih =>
    obtain ⟨k1, v1⟩ := p
    by_cases h : k1 = k
    · simp [dictInsert, dictGet?, h]
    · simp [dictInsert, dictGet?, h, ih]

theorem dictGet?_insert_ne {α : Type} (d : List (String × α)) {k a : String} (v : α)
    (h : a ≠ k) : dictGet? (dictInsert d k v) a = dictGet? d a := by
  have hka : ¬k = a := fun hh => h hh.symm
  induction d with
  | nil =>
    simp only [dictInsert, dictGet?]
    rw [if_neg hka]
  | cons p rest ih =>
    obtain ⟨k1, v1⟩ := p
    by_cases hk : k1 = k
    · simp only [dictInsert]
      rw [if_pos hk]
      simp only [dictGet?]
      rw [if_neg (hk ▸ hka), if_neg (hk ▸ hka)]
    · simp only [dictInsert]
      rw [if_neg hk]
      simp only [dictGet?]
      by_cases hk1a : k1 = a
      · rw [if_pos hk1a, if_pos hk1a]
      · rw [if_neg hk1a, if_neg hk1a]
        exact ih

theorem mem_dictInsert {α : Type} {d : List (String × α)} {k a : String} {v w : α}
    (h : (a, w) ∈ dictInsert d k v) : (a = k ∧ w = v) ∨ (a, w) ∈ d := by
  induction d with
  | nil =>
    simp only [dictInsert] at h
    have h2 := List.mem_singleton.mp h
    injection h2 with ha hw
    exact Or.inl ⟨ha, hw⟩
  | cons p rest ih =>
    obtain ⟨k1, v1⟩ := p
    by_cases hk : k1 = k
    · simp only [dictInsert] at h
      rw [if_pos hk] at h
      rcases List.mem_cons.mp h with h1 | h1
      · injection h1 with ha hw
        exact Or.inl ⟨ha, hw⟩
      · exact Or.inr (List.mem_cons_of_mem _ h1)
    · simp only [dictInsert] at h
      rw [if_neg hk] at h
      rcases List.mem_cons.mp h with h1 | h1
      · exact Or.inr (List.mem_cons.mpr (Or.inl h1))
      · rcases ih h1 with h2 | h2
        · exact Or.inl h2
        · exact Or.inr (List.mem_cons_of_mem _ h2)

theorem mem_dictKeys_insert {α : Type} (d : List (String × α)) (k : String) (v : α)
    (a : String) : a ∈ dictKeys (dictInsert d k v) ↔ a = k ∨ a ∈ dictKeys d := by
  induction d with
  | nil => simp [dictInsert, dictKeys]
  | cons p rest ih =>
    obtain ⟨k1, v1⟩ := p
    by_cases hk : k1 = k
    · subst hk
      simp [dictInsert, dictKeys]
    · simp only [dictInsert, if_neg hk, dictKeys, List.map_cons, List.mem_cons] at ih ⊢
      constructor
      · rintro (h | h)
        · exact Or.inr (Or.inl h)
        · rcases ih.mp h with h2 | h2
          · exact Or.inl h2
          · exact Or.inr (Or.inr h2)
      · rintro (h | h | h)
        · exact Or.inr (ih.mpr (Or.inl h))
        · exact Or.inl h
        · exact Or.inr (ih.mpr (Or.inr h))

theorem dictNodupKeys_insert {α : Type} {d : List (String × α)} (k : String) (v : α)
    (h : dictNodupKeys d) : dictNodupKeys (dictInsert d k v) := by
  induction d with
  | nil => simp [dictInsert, dictNodupKeys, dictKeys]
  | cons p rest ih =>
    obtain ⟨k1, v1⟩ := p
    rw [dictNodupKeys, dictKeys] at h
    simp only [List.map_cons, List.nodup_cons] at h
    by_cases hk : k1 = k
    · simp only [dictInsert]
      rw [if_pos hk]
      simp only [dictNodupKeys, dictKeys, List.map_cons, List.nodup_cons]
      exact ⟨hk ▸ h.1, h.2⟩
    · have hrest := ih h.2
      simp only [dictInsert]
      rw [if_neg hk]
      simp only [dictNodupKeys, dictKeys, List.map_cons, List.nodup_cons]
      refine ⟨?_, hrest⟩
      intro hmem
      rcases (mem_dictKeys_insert rest k v k1).mp hmem with h2 | h2
      · exact hk h2
      · exact h.1 h2

theorem mem_of_dictGet?_eq_some {α : Type} {d : List (String × α)} {a : String} {w : α}
    (h : dictGet? d a = some w) : (a, w) ∈ d := by
  induction d with
  | nil => simp [dictGet?] at h
  | cons p rest ih =>
    obtain ⟨k1, v1⟩ := p
    by_cases hk : k1 = a
    · simp only [dictGet?] at h
      rw [if_pos hk] at h
      injection h with hw
      exact List.mem_cons.mpr (Or.inl (by rw [hk, hw]))
    · simp only [dictGet?] at h
      rw [if_neg hk] at h
      exact List.mem_cons_of_mem _ (ih h)

theorem dictGet?_eq_some_of_mem {α : Type} {d : List (String × α)} {a : String} {w : α}
    (hnd : dictNodupKeys d) (h : (a, w) ∈ d) : dictGet? d a = some w := by
  induction d with
  | nil => simp at h
  | cons p rest ih =>
    obtain ⟨k1, v1⟩ := p
    rw [dictNodupKeys, dictKeys] at hnd
    simp only [List.map_cons, List.nodup_cons] at hnd
    rcases List.mem_cons.mp h with h1 | h1
    · injection h1 with ha hw
      simp only [dictGet?]
      rw [if_pos ha.symm, hw]
    · have hka : k1 ≠ a := by
        intro hk
        subst hk
        exact hnd.1 (List.mem_map.mpr ⟨(k1, w), h1, rfl⟩)
      simp only [dictGet?]
      rw [if_neg hka]
      exact ih hnd.2 h1

theorem mem_dictInsert_of_nodup {α : Type} {d : List (String × α)} {k a : String}
    {v w : α} (hnd : dictNodupKeys d) (h : (a, w) ∈ dictInsert d k v) :
    (a = k ∧ w = v) ∨ ((a, w) ∈ d ∧ a ≠ k) := by
  by_cases hak : a = k
  · subst hak
    have h1 := dictGet?_eq_some_of_mem (dictNodupKeys_insert a v hnd) h
    rw [dictGet?_insert_self] at h1
    injection h1 with hv
    exact Or.inl ⟨rfl, hv.symm⟩
  · rcases mem_dictInsert h with h1 | h1
    · exact absurd h1.1 hak
    · exact Or.inr ⟨h1, hak⟩

theorem dropWs_eq_nil_of_all {l : List Char} (h : ∀ c ∈ l, isPyWs c = true) :
    dropWs l = [] := by
  induction l with
  | nil => rfl
  | cons c rest ih =>
    have hc := h c (List.mem_cons_self c rest)
    simp only [dropWs, hc, if_true]
    exact ih fun d hd => h d (List.mem_cons_of_mem c hd)

theorem all_ws_of_dropWs_eq_nil {l : List Char} (h : dropWs l = []) :
    ∀ c ∈ l, isPyWs c = true := by
  induction l with
  | nil => simp
  | cons c rest ih =>
    by_cases hc : isPyWs c
    · intro d hd
      rcases List.mem_cons.mp hd with rfl | hd
      · exact hc
      · rw [dropWs, if_pos hc] at h
        exact ih h d hd
    · rw [dropWs, if_neg hc] at h
      cases h

theorem all_ws_of_all_ws_dropWs {l : List Char} (h : ∀ c ∈ dropWs l, isPyWs c = true) :
    ∀ c ∈ l, isPyWs c = true := by
  induction l with
  | nil => simp
  | cons c rest ih =>
    by_cases hc : isPyWs c
    · intro d hd
      rcases List.mem_cons.mp hd with rfl | hd
      · exact hc
      · rw [dropWs, if_pos hc] at h
        exact ih h d hd
    · intro d hd
      rw [dropWs, if_neg hc] at h
      exact h d hd

theorem pyFloatAux_eq_none_of_dropWs_nil {cs : List Char} (h : dropWs cs = []) :
    pyFloatAux cs = none := by
  unfold pyFloatAux
  rw [h]
  rfl

theorem pyFloat?_eq_none_of_blank {s : String} (h : cellNonBlank s = false) :
    pyFloat? s = none := by
  have hcase : s = "" ∨ pyStrip s = "" := by
    by_contra hc
    push_neg at hc
    simp [cellNonBlank, hc.1, hc.2] at h
  rcases hcase with h1 | h1
  · subst h1
    rfl
  · have h2 : pyStripChars s.data = [] := by
      have h3 := congrArg String.data h1
      simpa [pyStrip] using h3
    have h3 : dropWs ((dropWs s.data).reverse) = [] := by
      rwa [pyStripChars, List.reverse_eq_nil_iff] at h2
    have h4 : ∀ c ∈ dropWs s.data, isPyWs c = true := fun c hc =>
      all_ws_of_dropWs_eq_nil h3 c (List.mem_reverse.mpr hc)
    have h5 : ∀ c ∈ s.data, isPyWs c = true := all_ws_of_all_ws_dropWs h4
    exact pyFloatAux_eq_none_of_dropWs_nil (dropWs_eq_nil_of_all h5)

theorem cellNonBlank_of_pyFloat {s : String} {v : PyVal} (h : pyFloat? s = some v) :
    cellNonBlank s = true := by
  by_contra hc
  rw [pyFloat?_eq_none_of_blank (Bool.not_eq_true _ ▸ hc)] at h
  cases h

theorem processCell_ok_mem {headers : List String} {i j : Nat} {value : String}
    {inner inner2 : List (String × PyVal)}
    (h : processCell headers i j value inner = Except.ok inner2) {a : String} {w : PyVal}
    (hm : (a, w) ∈ inner2) : (a, w) ∈ inner ∨ (i < j ∧ headers.get? j = some a) := by
  unfold processCell at h
  by_cases hb : cellNonBlank value
  · rw [if_pos hb] at h
    cases hp : pyFloat? value with
    | none =>
      rw [hp] at h
      injection h with h2
      subst h2
      exact Or.inl hm
    | some v =>
      rw [hp] at h
      cases hg : headers.get? j with
      | none =>
        rw [hg] at h
        exact Except.noConfusion h
      | some other =>
        rw [hg] at h
        replace h : Except.ok (if i < j then dictInsert inner other v else inner) =
            Except.ok inner2 := h
        by_cases hij : i < j
        · rw [if_pos hij] at h
          injection h with h2
          subst h2
          rcases mem_dictInsert hm with ⟨ha, hw⟩ | hmem
          · exact Or.inr ⟨hij, by rw [ha]⟩
          · exact Or.inl hmem
        · rw [if_neg hij] at h
          injection h with h2
          subst h2
          exact Or.inl hm
  · rw [if_neg hb] at h
    injection h with h2
    subst h2
    exact Or.inl hm

theorem processCell_ok_of_lt {headers : List String} (i j : Nat) (value : String)
    (inner : List (String × PyVal)) (hj : j < headers.length) :
    ∃ inner2, processCell headers i j value inner = Except.ok inner2 := by
  unfold processCell
  by_cases hb : cellNonBlank value
  · rw [if_pos hb]
    cases hp : pyFloat? value with
    | none => exact ⟨inner, rfl⟩
    | some v =>
      rw [List.get?_eq_get hj]
      exact ⟨_, rfl⟩
  · rw [if_neg hb]
    exact ⟨inner, rfl⟩

theorem processCell_error_of_oob {headers : List String} {i j : Nat} {value : String}
    (inner : List (String × PyVal)) {v : PyVal} (hp : pyFloat? value = some v)
    (hj : headers.length ≤ j) :
    processCell headers i j value inner = Except.error PyErr.indexError := by
  unfold processCell
  rw [if_pos (cellNonBlank_of_pyFloat hp), hp, List.get?_eq_none.mpr hj]

theorem processCell_ok_of_le {headers : List String} {i j : Nat} {value : String}
    (inner : List (String × PyVal)) {v : PyVal} (hp : pyFloat? value = some v)
    (hji : j ≤ i) (hjlen : j < headers.length) :
    processCell headers i j value inner = Except.ok inner := by
  unfold processCell
  rw [if_pos (cellNonBlank_of_pyFloat hp), hp, List.get?_eq_get hjlen]
  show Except.ok (if i < j then dictInsert inner (headers.get ⟨j, hjlen⟩) v else inner) =
    Except.ok inner
  rw [if_neg (Nat.not_lt.mpr hji)]

theorem processCell_ok_insert {headers : List String} {i j : Nat} {value : String}
    (inner : List (String × PyVal)) {v : PyVal} {b : String} (hp : pyFloat? value = some v)
    (hij : i < j) (hb : headers.get? j = some b) :
    processCell headers i j value inner = Except.ok (dictInsert inner b v) := by
  unfold processCell
  rw [if_pos (cellNonBlank_of_pyFloat hp), hp, hb]
  show Except.ok (if i < j then dictInsert inner b v else inner) =
    Except.ok (dictInsert inner b v)
  rw [if_pos hij]

theorem processCells_ok_mem {headers : List String} {i : Nat} {cells : List String}
    {j : Nat} {inner out : List (String × PyVal)}
    (h : processCells headers i cells j inner = Except.ok out) {b : String} {w : PyVal}
    (hm : (b, w) ∈ out) : (b, w) ∈ inner ∨ ∃ jb, i < jb ∧ headers.get? jb = some b := by
  induction cells generalizing j inner with
  | nil =>
    simp only [processCells] at h
    injection h with h2
    subst h2
    exact Or.inl hm
  | cons c rest ih =>
    simp only [processCells] at h
    cases hc : processCell headers i j c inner with
    | error e =>
      rw [hc] at h
      exact Except.noConfusion h
    | ok inner1 =>
      rw [hc] at h
      rcases ih h with hmem | hjb
      · rcases processCell_ok_mem hc hmem with h1 | h1
        · exact Or.inl h1
        · exact Or.inr ⟨j, h1.1, h1.2⟩
      · exact Or.inr hjb

theorem processCells_ok_of_bound {headers : List String} (i : Nat) (cells : List String)
    (j : Nat) (inner : List (String × PyVal)) (hb : j + cells.length ≤ headers.length) :
    ∃ out, processCells headers i cells j inner = Except.ok out := by
  induction cells generalizing j inner with
  | nil => exact ⟨inner, rfl⟩
  | cons c rest ih =>
    have hj : j < headers.length := by
      simp only [List.length_cons] at hb
      omega
    obtain ⟨inner1, h1⟩ := processCell_ok_of_lt i j c inner hj
    obtain ⟨out, h2⟩ := ih (j + 1) inner1 (by simp only [List.length_cons] at hb; omega)
    refine ⟨out, ?_⟩
    simp only [processCells]
    rw [h1]
    exact h2

theorem processCells_error_of_oob {headers : List String} {i : Nat} {cells : List String}
    {j k : Nat} {s : String} {v : PyVal} (inner : List (String × PyVal))
    (hcell : cells.get? k = some s) (hp : pyFloat? s = some v)
    (hoob : headers.length ≤ j + k) :
    processCells headers i cells j inner = Except.error PyErr.indexError := by
  induction cells generalizing j k inner with
  | nil => simp at hcell
  | cons c rest ih =>
    cases k with
    | zero =>
      simp only [List.get?] at hcell
      injection hcell with hs
      subst hs
      simp only [processCells]
      rw [processCell_error_of_oob inner hp (by omega)]
    | succ k1 =>
      have hcell1 : rest.get? k1 = some s := by simpa using hcell
      simp only [processCells]
      cases hc : processCell headers i j c inner with
      | error e =>
        cases e
        rfl
      | ok inner1 => exact ih inner1 hcell1 (by omega)

theorem processRows_ok_nodup {headers : List String} {i : Nat} {rows : List (List String)}
    {corr out : List (String × List (String × PyVal))} (hnd : dictNodupKeys corr)
    (h : processRows headers i rows corr = Except.ok out) : dictNodupKeys out := by
  induction rows generalizing i corr with
  | nil =>
    simp only [processRows] at h
    injection h with h2
    subst h2
    exact hnd
  | cons row rest ih =>
    cases row with
    | nil =>
      simp only [processRows] at h
      exact Except.noConfusion h
    | cons name cells =>
      simp only [processRows] at h
      cases hc : processCells headers i cells 0 [] with
      | error e =>
        rw [hc] at h
        exact Except.noConfusion h
      | ok inner =>
        rw [hc] at h
        exact ih (dictNodupKeys_insert _ _ (dictNodupKeys_insert _ _ hnd)) h

theorem processRows_ok_mem {headers : List String} {i : Nat} {rows : List (List String)}
    {corr out : List (String × List (String × PyVal))} (hnd : dictNodupKeys corr)
    (h : processRows headers i rows corr = Except.ok out)
    {a : String} {inner : List (String × PyVal)} (hm : (a, inner) ∈ out) :
    (a, inner) ∈ corr ∨
      ∃ t cells, rows.get? t = some (a :: cells) ∧
        processCells headers (i + t) cells 0 [] = Except.ok inner := by
  induction rows generalizing i corr with
  | nil =>
    simp only [processRows] at h
    injection h with h2
    subst h2
    exact Or.inl hm
  | cons row rest ih =>
    cases row with
    | nil =>
      simp only [processRows] at h
      exact Except.noConfusion h
    | cons name cells0 =>
      simp only [processRows] at h
      cases hc : processCells headers i cells0 0 [] with
      | error e =>
        rw [hc] at h
        exact Except.noConfusion h
      | ok inner0 =>
        rw [hc] at h
        have hnd1 : dictNodupKeys (dictInsert corr name []) := dictNodupKeys_insert _ _ hnd
        rcases ih (dictNodupKeys_insert _ _ hnd1) h with hmem | ⟨t, cells1, hrow, hcells⟩
        · rcases mem_dictInsert_of_nodup hnd1 hmem with ⟨ha, hinner⟩ | ⟨hmem1, hne⟩
          · refine Or.inr ⟨0, cells0, by rw [ha]; rfl, ?_⟩
            rw [Nat.add_zero, hinner]
            exact hc
          · rcases mem_dictInsert_of_nodup hnd hmem1 with ⟨ha, _⟩ | ⟨hmem2, _⟩
            · exact absurd ha hne
            · exact Or.inl hmem2
        · refine Or.inr ⟨t + 1, cells1, by simpa using hrow, ?_⟩
          rw [show i + (t + 1) = i + 1 + t by omega]
          exact hcells

theorem processRows_keys {headers : List String} {i : Nat} {rows : List (List String)}
    {corr out : List (String × List (String × PyVal))}
    (h : processRows headers i rows corr = Except.ok out) (a : String) :
    a ∈ dictKeys out ↔ a ∈ dictKeys corr ∨ ∃ r ∈ rows, r.head? = some a := by
  induction rows generalizing i corr with
  | nil =>
    simp only [processRows] at h
    injection h with h2
    subst h2
    simp
  | cons row rest ih =>
    cases row with
    | nil =>
      simp only [processRows] at h
      exact Except.noConfusion h
    | cons name cells =>
      simp only [processRows] at h
      cases hc : processCells headers i cells 0 [] with
      | error e =>
        rw [hc] at h
        exact Except.noConfusion h
      | ok inner =>
        rw [hc] at h
        rw [ih h]
        rw [mem_dictKeys_insert, mem_dictKeys_insert]
        constructor
        · rintro ((ha | (ha | hk)) | ⟨r, hr, hh⟩)
          · exact Or.inr ⟨name :: cells, List.mem_cons_self _ _, by rw [ha]; rfl⟩
          · exact Or.inr ⟨name :: cells, List.mem_cons_self _ _, by rw [ha]; rfl⟩
          · exact Or.inl hk
          · exact Or.inr ⟨r, List.mem_cons_of_mem _ hr, hh⟩
        · rintro (hk | ⟨r, hr, hh⟩)
          · exact Or.inl (Or.inr (Or.inr hk))
          · rcases List.mem_cons.mp hr with rfl | hr2
            · injection hh with hh2
              exact Or.inl (Or.inl hh2.symm)
            · exact Or.inr ⟨r, hr2, hh⟩

theorem processRows_rows_nonempty {headers : List String} {i : Nat}
    {rows : List (List String)} {corr out : List (String × List (String × PyVal))}
    (h : processRows headers i rows corr = Except.ok out) : ∀ r ∈ rows, r ≠ [] := by
  induction rows generalizing i corr with
  | nil => simp
  | cons row rest ih =>
    cases row with
    | nil =>
      simp only [processRows] at h
      exact Except.noConfusion h
    | cons name cells =>
      simp only [processRows] at h
      cases hc : processCells headers i cells 0 [] with
      | error e =>
        rw [hc] at h
        exact Except.noConfusion h
      | ok inner =>
        rw [hc] at h
        intro r hr
        rcases List.mem_cons.mp hr with rfl | hr2
        · exact List.cons_ne_nil _ _
        · exact ih h r hr2

theorem processRows_get?_frozen {headers : List String} {i : Nat}
    {rows : List (List String)} {corr out : List (String × List (String × PyVal))}
    {a : String} (h : processRows headers i rows corr = Except.ok out)
    (hnot : ∀ r ∈ rows, r.head? ≠ some a) : dictGet? out a = dictGet? corr a := by
  induction rows generalizing i corr with
  | nil =>
    simp only [processRows] at h
    injection h with h2
    subst h2
    rfl
  | cons row rest ih =>
    cases row with
    | nil =>
      simp only [processRows] at h
      exact Except.noConfusion h
    | cons name cells =>
      simp only [processRows] at h
      cases hc : processCells headers i cells 0 [] with
      | error e =>
        rw [hc] at h
        exact Except.noConfusion h
      | ok inner =>
        rw [hc] at h
        have hna : a ≠ name := by
          intro he
          exact hnot (name :: cells) (List.mem_cons_self _ _) (by rw [he]; rfl)
        rw [ih h fun r hr => hnot r (List.mem_cons_of_mem _ hr),
          dictGet?_insert_ne _ _ hna, dictGet?_insert_ne _ _ hna]

theorem processRows_last {headers : List String} {i : Nat} {rows : List (List String)}
    {corr out : List (String × List (String × PyVal))} {t : Nat} {name : String}
    {cells : List String} (h : processRows headers i rows corr = Except.ok out)
    (hrow : rows.get? t = some (name :: cells))
    (hlast : ∀ t2 r2, t < t2 → rows.get? t2 = some r2 → r2.head? ≠ some name) :
    ∃ inner, processCells headers (i + t) cells 0 [] = Except.ok inner ∧
      dictGet? out name = some inner := by
  induction rows generalizing i corr t with
  | nil => simp at hrow
  | cons row rest ih =>
    cases row with
    | nil =>
      simp only [processRows] at h
      exact Except.noConfusion h
    | cons name0 cells0 =>
      simp only [processRows] at h
      cases hc : processCells headers i cells0 0 [] with
      | error e =>
        rw [hc] at h
        exact Except.noConfusion h
      | ok inner0 =>
        rw [hc] at h
        cases t with
        | zero =>
          injection hrow with hr
          injection hr with hn hcl
          subst hn
          subst hcl
          have hnot : ∀ r ∈ rest, r.head? ≠ some name0 := by
            intro r hr hh
            obtain ⟨k, hk⟩ := List.get?_of_mem hr
            exact hlast (k + 1) r (Nat.succ_pos k) (by simpa using hk) hh
          have hfrozen := processRows_get?_frozen h hnot
          rw [dictGet?_insert_self] at hfrozen
          refine ⟨inner0, ?_, hfrozen⟩
          rw [Nat.add_zero]
          exact hc
        | succ t1 =>
          have hrow1 : rest.get? t1 = some (name :: cells) := by simpa using hrow
          have hlast1 : ∀ t2 r2, t1 < t2 → rest.get? t2 = some r2 →
              r2.head? ≠ some name := by
            intro t2 r2 hlt hg
            exact hlast (t2 + 1) r2 (by omega) (by simpa using hg)
          obtain ⟨inner, h1, h2⟩ := ih h hrow1 hlast1
          refine ⟨inner, ?_, h2⟩
          rw [show i + (t1 + 1) = i + 1 + t1 by omega]
          exact h1

theorem processRows_error_of_nil_mem {headers : List String} (i : Nat)
    {rows : List (List String)} (corr : List (String × List (String × PyVal)))
    (hmem : [] ∈ rows) :
    processRows headers i rows corr = Except.error PyErr.indexError := by
  induction rows generalizing i corr with
  | nil => simp at hmem
  | cons row rest ih =>
    rcases List.mem_cons.mp hmem with h | h
    · rw [← h]
      rfl
    · cases row with
      | nil => rfl
      | cons name cells =>
        simp only [processRows]
        cases hc : processCells headers i cells 0 [] with
        | error e =>
          cases e
          rfl
        | ok inner => exact ih (i + 1) _ h

theorem processRows_error_of_badcell {headers : List String} {i : Nat}
    {rows : List (List String)} {corr : List (String × List (String × PyVal))}
    {t k : Nat} {r : List String} {s : String} {v : PyVal}
    (hrow : rows.get? t = some r) (hcell : (r.drop 1).get? k = some s)
    (hp : pyFloat? s = some v) (hoob : headers.length ≤ k) :
    processRows headers i rows corr = Except.error PyErr.indexError := by
  induction rows generalizing i corr t with
  | nil => simp at hrow
  | cons row rest ih =>
    cases t with
    | zero =>
      simp only [List.get?] at hrow
      injection hrow with hr
      subst hr
      cases row with
      | nil => rfl
      | cons name cells =>
        have hcells : cells.get? k = some s := by simpa using hcell
        simp only [processRows]
        rw [processCells_error_of_oob [] hcells hp (by omega)]
    | succ t1 =>
      have hrow1 : rest.get? t1 = some r := by simpa using hrow
      cases row with
      | nil => rfl
      | cons name cells =>
        simp only [processRows]
        cases hc : processCells headers i cells 0 [] with
        | error e =>
          cases e
          rfl
        | ok inner => exact ih hrow1

theorem processRows_ok_of_shape {headers : List String} (i : Nat)
    (rows : List (List String)) (corr : List (String × List (String × PyVal)))
    (hshape : ∀ r ∈ rows, r ≠ [] ∧ r.length ≤ headers.length + 1) :
    ∃ out, processRows headers i rows corr = Except.ok out := by
  induction rows generalizing i corr with
  | nil => exact ⟨corr, rfl⟩
  | cons row rest ih =>
    obtain ⟨hne, hlen⟩ := hshape row (List.mem_cons_self _ _)
    cases row with
    | nil => exact absurd rfl hne
    | cons name cells =>
      have hb : 0 + cells.length ≤ headers.length := by
        simp only [List.length_cons] at hlen
        omega
      obtain ⟨inner, hc⟩ := processCells_ok_of_bound i cells 0 [] hb
      obtain ⟨out, hrest⟩ :=
        ih (i + 1) (dictInsert (dictInsert corr name []) name inner)
          (fun r hr => hshape r (List.mem_cons_of_mem _ hr))
      refine ⟨out, ?_⟩
      simp only [processRows]
      rw [hc]
      exact hrest

theorem reduce_ok_iff {headerRow : List String} {dataRows : List (List String)}
    {doc : Doc} :
    reduce (headerRow :: dataRows) = Except.ok doc ↔
      ∃ corr, processRows (headerRow.drop 1) 0 dataRows [] = Except.ok corr ∧
        doc = { nodes := headerRow.drop 1, correlations := corr } := by
  cases hp : processRows (headerRow.drop 1) 0 dataRows [] with
  | error e =>
    have hred : reduce (headerRow :: dataRows) = Except.error e := by
      show (match processRows (headerRow.drop 1) 0 dataRows [] with
        | Except.ok corr => Except.ok (Doc.mk (headerRow.drop 1) corr)
        | Except.error e => Except.error e) = Except.error e
      rw [hp]
    constructor
    · intro h
      rw [hred] at h
      exact Except.noConfusion h
    · rintro ⟨corr, hc, rfl⟩
      exact Except.noConfusion hc
  | ok corr =>
    have hred : reduce (headerRow :: dataRows) =
        Except.ok (Doc.mk (headerRow.drop 1) corr) := by
      show (match processRows (headerRow.drop 1) 0 dataRows [] with
        | Except.ok corr => Except.ok (Doc.mk (headerRow.drop 1) corr)
        | Except.error e => Except.error e) =
        Except.ok (Doc.mk (headerRow.drop 1) corr)
      rw [hp]
    rw [hred]
    constructor
    · intro h
      injection h with h2
      exact ⟨corr, rfl, h2.symm⟩
    · rintro ⟨corr2, hc, rfl⟩
      injection hc with h2
      rw [h2]

theorem firstIdx_eq_of_get? {l : List String} {j : Nat} {b : String} (hnd : l.Nodup)
    (h : l.get? j = some b) : firstIdx l b = j := by
  induction l generalizing j with
  | nil => simp at h
  | cons c rest ih =>
    rw [List.nodup_cons] at hnd
    cases j with
    | zero =>
      simp only [List.get?] at h
      injection h with h2
      simp [firstIdx, h2]
    | succ j1 =>
      simp only [List.get?] at h
      have hb : b ∈ rest := List.get?_mem h
      have hcb : ¬c = b := by
        intro he
        exact hnd.1 (he ▸ hb)
      simp only [firstIdx]
      rw [if_neg hcb, ih hnd.2 h]

theorem alignedChk_spec {headers : List String} {dataRows : List (List String)}
    (h : alignedChk headers dataRows = true) :
    ∀ t r b, dataRows.get? t = some r → headers.get? t = some b →
      r.head? = some b := by
  intro t r b hr hb
  have ht : t < dataRows.length := by
    rcases List.get?_eq_some.mp hr with ⟨hlt, _⟩
    exact hlt
  have h2 := List.all_eq_true.mp h t (List.mem_range.mpr ht)
  rw [hr, hb] at h2
  exact eq_of_beq h2

theorem labelsChk_spec {headers : List String} {dataRows : List (List String)}
    (h : labelsChk headers dataRows = true) :
    ∀ r ∈ dataRows, ∀ x, r.head? = some x → x ∈ headers := by
  intro r hr x hx
  have h2 := List.all_eq_true.mp h r hr
  rw [hx] at h2
  simpa using h2

theorem dictGet?_isSome_of_mem_keys {α : Type} {d : List (String × α)} {a : String}
    (h : a ∈ dictKeys d) : ∃ w, dictGet? d a = some w := by
  induction d with
  | nil => simp [dictKeys] at h
  | cons p rest ih =>
    obtain ⟨k1, v1⟩ := p
    by_cases hk : k1 = a
    · refine ⟨v1, ?_⟩
      simp only [dictGet?]
      rw [if_pos hk]
    · simp only [dictKeys, List.map_cons, List.mem_cons] at h
      rcases h with h | h
      · exact absurd h.symm hk
      · obtain ⟨w, hw⟩ := ih h
        refine ⟨w, ?_⟩
        simp only [dictGet?]
        rw [if_neg hk]
        exact hw

theorem pyStrip_eq_empty_of_all_ws {s : String} (h : ∀ c ∈ s.data, isPyWs c = true) :
    pyStrip s = "" := by
  unfold pyStrip pyStripChars
  rw [dropWs_eq_nil_of_all h]
  rfl

theorem cellNonBlank_eq_false_of_all_ws {s : String} (h : ∀ c ∈ s.data, isPyWs c = true) :
    cellNonBlank s = false := by
  unfold cellNonBlank
  rw [pyStrip_eq_empty_of_all_ws h]
  simp

/-- C2 (amended): the claim as stated fails on tables with duplicated or
misaligned labels; it holds for tables whose node names are pairwise distinct
and whose data rows are each labelled by the node of their own index. Then
every retained entry (a, b) has both names among the nodes with
index(b) > index(a) and a ≠ b, and for every pair with
index(b) ≤ index(a) no entry is stored in correlations[a] under key b. -/
theorem C2_upper_triangle (headerRow : List String) (dataRows : List (List String))
    (doc : Doc) (hnodup : (headerRow.drop 1).Nodup)
    (halign : alignedChk (headerRow.drop 1) dataRows = true)
    (hok : reduce (headerRow :: dataRows) = Except.ok doc) :
    (∀ a inner, (a, inner) ∈ doc.correlations → ∀ b v, (b, v) ∈ inner →
        a ∈ doc.nodes ∧ b ∈ doc.nodes ∧
          firstIdx doc.nodes a < firstIdx doc.nodes b ∧ a ≠ b) ∧
      (∀ a inner, (a, inner) ∈ doc.correlations → ∀ b,
        firstIdx doc.nodes b ≤ firstIdx doc.nodes a → dictGet? inner b = none) := by
  obtain ⟨corr, hp, rfl⟩ := reduce_ok_iff.mp hok
  have key : ∀ a inner, (a, inner) ∈ corr → ∀ b v, (b, v) ∈ inner →
      a ∈ headerRow.drop 1 ∧ b ∈ headerRow.drop 1 ∧
        firstIdx (headerRow.drop 1) a < firstIdx (headerRow.drop 1) b ∧ a ≠ b := by
    intro a inner hmem b v hbv
    rcases processRows_ok_mem (by simp [dictNodupKeys, dictKeys]) hp hmem with
      hf | ⟨t, cells, hrow, hcells⟩
    · simp at hf
    · rcases processCells_ok_mem hcells hbv with hf | ⟨jb, hij, hgb⟩
      · simp at hf
      · have hij2 : t < jb := by omega
        have hjblen : jb < (headerRow.drop 1).length :=
          (List.get?_eq_some.mp hgb).choose
        have htlen : t < (headerRow.drop 1).length := by omega
        have hht := List.get?_eq_get htlen
        have hhead := alignedChk_spec halign t (a :: cells) _ hrow hht
        simp only [List.head?, Option.some.injEq] at hhead
        have ha : (headerRow.drop 1).get? t = some a := by
          rw [hht, hhead]
        have hfa : firstIdx (headerRow.drop 1) a = t := firstIdx_eq_of_get? hnodup ha
        have hfb : firstIdx (headerRow.drop 1) b = jb := firstIdx_eq_of_get? hnodup hgb
        refine ⟨List.get?_mem ha, List.get?_mem hgb, by rw [hfa, hfb]; omega, ?_⟩
        intro hab
        rw [hab] at hfa
        omega
  refine ⟨key, ?_⟩
  intro a inner hmem b hle
  dsimp only at hle hmem
  cases hget : dictGet? inner b with
  | none => rfl
  | some v =>
    obtain ⟨_, _, hlt, _⟩ := key a inner hmem b v (mem_of_dictGet?_eq_some hget)
    omega

/-- C2 counterexample: with duplicated header names the script retains a
self-correlation entry (X, X), refuting the claim for arbitrary tables. -/
theorem C2_counterexample :
    ∃ doc inner v, reduce [["", "X", "X"], ["X", "", "0.7"]] = Except.ok doc ∧
      ("X", inner) ∈ doc.correlations ∧ ("X", v) ∈ inner :=
  ⟨Doc.mk ["X", "X"] [("X", [("X", PyVal.num (mkRat 7 10))])],
    [("X", PyVal.num (mkRat 7 10))], PyVal.num (mkRat 7 10), rfl,
    List.mem_singleton.mpr rfl, List.mem_singleton.mpr rfl⟩

/-- C2 witness: the amended theorem applied to the Scenario A table. -/
theorem C2_upper_triangle_witness :
    (∀ a inner, (a, inner) ∈ docA.correlations → ∀ b v, (b, v) ∈ inner →
        a ∈ docA.nodes ∧ b ∈ docA.nodes ∧
          firstIdx docA.nodes a < firstIdx docA.nodes b ∧ a ≠ b) ∧
      (∀ a inner, (a, inner) ∈ docA.correlations → ∀ b,
        firstIdx docA.nodes b ≤ firstIdx docA.nodes a → dictGet? inner b = none) :=
  C2_upper_triangle headerRowA dataRowsA docA (by decide) (by decide) (by rfl)

/-- C3 (amended): every inner key of every inner mapping is an element of
nodes, for every table; every outer key is an element of nodes provided every
data row label is one of the node names (the claim as stated fails because a
row label can be any string, unrelated to the header). -/
theorem C3_keys (headerRow : List String) (dataRows : List (List String)) (doc : Doc)
    (hok : reduce (headerRow :: dataRows) = Except.ok doc) :
    (∀ a inner, (a, inner) ∈ doc.correlations → ∀ b v, (b, v) ∈ inner →
        b ∈ doc.nodes) ∧
      (labelsChk (headerRow.drop 1) dataRows = true →
        ∀ a inner, (a, inner) ∈ doc.correlations → a ∈ doc.nodes) := by
  obtain ⟨corr, hp, rfl⟩ := reduce_ok_iff.mp hok
  constructor
  · intro a inner hmem b v hbv
    rcases processRows_ok_mem (by simp [dictNodupKeys, dictKeys]) hp hmem with
      hf | ⟨t, cells, hrow, hcells⟩
    · simp at hf
    · rcases processCells_ok_mem hcells hbv with hf | ⟨jb, _, hgb⟩
      · simp at hf
      · exact List.get?_mem hgb
  · intro hlabels a inner hmem
    rcases processRows_ok_mem (by simp [dictNodupKeys, dictKeys]) hp hmem with
      hf | ⟨t, cells, hrow, _⟩
    · simp at hf
    · exact labelsChk_spec hlabels (a :: cells) (List.get?_mem hrow) a rfl

/-- C3 counterexample: a data row labelled Q under a header with no node Q
yields the outer key Q, which is not an element of nodes. -/
theorem C3_counterexample :
    ∃ doc inner a, reduce [[""], ["Q"]] = Except.ok doc ∧
      (a, inner) ∈ doc.correlations ∧ a ∉ doc.nodes :=
  ⟨Doc.mk [] [("Q", [])], [], "Q", rfl, List.mem_singleton.mpr rfl, by simp⟩

/-- C3 witness: the amended theorem applied to the Scenario A table. -/
theorem C3_keys_witness :
    (∀ a inner, (a, inner) ∈ docA.correlations → ∀ b v, (b, v) ∈ inner →
        b ∈ docA.nodes) ∧
      (labelsChk (headerRowA.drop 1) dataRowsA = true →
        ∀ a inner, (a, inner) ∈ docA.correlations → a ∈ docA.nodes) :=
  C3_keys headerRowA dataRowsA docA (by rfl)

/-- C4 (amended): a numeric cell at position j ≤ i is discarded with no error
only when j is within the header list's bounds; when j is out of bounds the
uncaught IndexError from `headers[j]` aborts the run even though j ≤ i,
because the source looks up `headers[j]` before testing j > i. -/
theorem C4_lower_triangle (headers : List String) (i j : Nat) (value : String)
    (inner : List (String × PyVal)) :
    ((pyFloat? value).isSome → j ≤ i → j < headers.length →
        processCell headers i j value inner = Except.ok inner) ∧
      (∀ v, pyFloat? value = some v → headers.length ≤ j →
        processCell headers i j value inner = Except.error PyErr.indexError) := by
  constructor
  · intro hsome hji hjlen
    obtain ⟨v, hv⟩ := Option.isSome_iff_exists.mp hsome
    exact processCell_ok_of_le inner hv hji hjlen
  · intro v hv hoob
    exact processCell_error_of_oob inner hv hoob

/-- C4 counterexample: the cell 5 of row A parses as a number and sits at
position j = 0 ≤ i = 0, yet the run fails with an IndexError because the
header list is empty, refuting the "regardless of bounds" part of the claim. -/
theorem C4_counterexample :
    pyFloat? "5" = some (PyVal.num 5) ∧
      reduce [["X"], ["A", "5"]] = Except.error PyErr.indexError :=
  ⟨rfl, rfl⟩

/-- C4 witness: the amended theorem at concrete cells. -/
theorem C4_lower_triangle_witness :
    processCell ["A"] 0 0 "5" [] = Except.ok [] ∧
      processCell [] 0 0 "5" [] = Except.error PyErr.indexError :=
  ⟨(C4_lower_triangle ["A"] 0 0 "5" []).1 (by decide) (by decide) (by decide),
    (C4_lower_triangle [] 0 0 "5" []).2 (PyVal.num 5) (by decide) (by decide)⟩

/-- C5: a cell holding n/a, the empty string, or only whitespace yields no
entry and no failure; a cell holding a valid float string in an
upper-triangle position within header bounds yields an entry whose value is
exactly the parsed number. -/
theorem C5_lenient (headers : List String) (i j : Nat) (inner : List (String × PyVal)) :
    processCell headers i j "n/a" inner = Except.ok inner ∧
      processCell headers i j "" inner = Except.ok inner ∧
      (∀ s : String, (∀ c ∈ s.data, isPyWs c = true) →
        processCell headers i j s inner = Except.ok inner) ∧
      (∀ s v b, pyFloat? s = some v → i < j → headers.get? j = some b →
        processCell headers i j s inner = Except.ok (dictInsert inner b v)) := by
  refine ⟨rfl, rfl, ?_, ?_⟩
  · intro s hws
    unfold processCell
    rw [if_neg]
    rw [cellNonBlank_eq_false_of_all_ws hws]
    exact Bool.false_ne_true
  · intro s v b hv hij hb
    exact processCell_ok_insert inner hv hij hb

/-- C5 witness: the theorem at concrete cells of a two-node header, with the
example float strings of the specification parsed to their exact values. -/
theorem C5_lenient_witness :
    processCell ["A", "B"] 0 1 "n/a" [] = Except.ok [] ∧
      processCell ["A", "B"] 0 1 "" [] = Except.ok [] ∧
      processCell ["A", "B"] 0 1 " " [] = Except.ok [] ∧
      processCell ["A", "B"] 0 1 "0.73" [] =
        Except.ok [("B", PyVal.num (mkRat 73 100))] ∧
      processCell ["A", "B"] 0 1 "-1.2e-3" [] =
        Except.ok [("B", PyVal.num (mkRat (-3) 2500))] := by
  obtain ⟨h1, h2, h3, h4⟩ := C5_lenient ["A", "B"] 0 1 []
  exact ⟨h1, h2, h3 " " (by decide),
    h4 "0.73" (PyVal.num (mkRat 73 100)) "B" (by decide) (by decide) (by decide),
    h4 "-1.2e-3" (PyVal.num (mkRat (-3) 2500)) "B" (by decide) (by decide) (by decide)⟩

/-- C6: a table with an empty data row, or with a numeric upper-triangle cell
whose position is out of bounds of the header list, makes the run fail with
the uncaught IndexError (the specification's InputShapeError), so no output
document is produced. -/
theorem C6_shape_error (headerRow : List String) (dataRows : List (List String))
    (h : ([] ∈ dataRows) ∨
      ∃ t r k s v, dataRows.get? t = some r ∧ (r.drop 1).get? k = some s ∧
        pyFloat? s = some v ∧ t < k ∧ (headerRow.drop 1).length ≤ k) :
    reduce (headerRow :: dataRows) = Except.error PyErr.indexError := by
  have hred : ∀ e, processRows (headerRow.drop 1) 0 dataRows [] = Except.error e →
      reduce (headerRow :: dataRows) = Except.error e := by
    intro e hp
    show (match processRows (headerRow.drop 1) 0 dataRows [] with
      | Except.ok corr => Except.ok (Doc.mk (headerRow.drop 1) corr)
      | Except.error e => Except.error e) = Except.error e
    rw [hp]
  rcases h with hnil | ⟨t, r, k, s, v, hrow, hcell, hps, htk, hoob⟩
  · exact hred _ (processRows_error_of_nil_mem 0 [] hnil)
  · exact hred _ (processRows_error_of_badcell hrow hcell hps hoob)

/-- C6 witness: an empty data row, and a row wider than the header with a
numeric upper-triangle cell past the header's end, both abort the run. -/
theorem C6_shape_error_witness :
    reduce [["", "A"], []] = Except.error PyErr.indexError ∧
      reduce [["", "A"], ["A", "1", "2", "3"]] = Except.error PyErr.indexError :=
  ⟨C6_shape_error ["", "A"] [[]] (Or.inl (by decide)),
    C6_shape_error ["", "A"] [["A", "1", "2", "3"]]
      (Or.inr ⟨0, ["A", "1", "2", "3"], 2, "3", PyVal.num 3, by decide, by decide,
        by decide, by decide, by decide⟩)⟩

/-- C7: a table whose data rows are all non-empty and no wider than the
header row is reduced without error; a short row only iterates over its
present cells. -/
theorem C7_ragged_ok (headerRow : List String) (dataRows : List (List String))
    (hshape : ∀ r ∈ dataRows, r ≠ [] ∧ r.length ≤ headerRow.length) :
    ∃ doc, reduce (headerRow :: dataRows) = Except.ok doc := by
  have hlen : ∀ r ∈ dataRows, r ≠ [] ∧ r.length ≤ (headerRow.drop 1).length + 1 := by
    intro r hr
    obtain ⟨h1, h2⟩ := hshape r hr
    have h3 : 0 < r.length := List.length_pos.mpr h1
    refine ⟨h1, ?_⟩
    rw [List.length_drop]
    omega
  obtain ⟨corr, hp⟩ := processRows_ok_of_shape 0 dataRows [] hlen
  exact ⟨Doc.mk (headerRow.drop 1) corr, reduce_ok_iff.mpr ⟨corr, hp, rfl⟩⟩

/-- C7 witness: a table with one full row and one row holding only its label
reduces successfully. -/
theorem C7_ragged_ok_witness :
    ∃ doc, reduce [["", "A", "B"], ["A", "", "0.5"], ["B"]] = Except.ok doc :=
  C7_ragged_ok ["", "A", "B"] [["A", "", "0.5"], ["B"]] (by decide)

/-- C8: the reducer is deterministic; two runs on the same table give the
same node list and the same correlation mapping. -/
theorem C8_deterministic (table : List (List String)) (d1 d2 : Doc)
    (h1 : reduce table = Except.ok d1) (h2 : reduce table = Except.ok d2) :
    d1.nodes = d2.nodes ∧ d1.correlations = d2.correlations := by
  rw [h1] at h2
  injection h2 with h3
  exact ⟨by rw [h3], by rw [h3]⟩

/-- C8 witness: two runs on a one-node table. -/
theorem C8_deterministic_witness :
    (Doc.mk ["A"] []).nodes = (Doc.mk ["A"] []).nodes ∧
      (Doc.mk ["A"] []).correlations = (Doc.mk ["A"] []).correlations :=
  C8_deterministic [["", "A"]] (Doc.mk ["A"] []) (Doc.mk ["A"] []) rfl rfl

/-- C9: on success the node list is one shorter than the header row, the
outer keys are exactly the data row labels, and every data row contributes
exactly one (possibly empty) inner mapping keyed by its first cell. -/
theorem C9_shape (headerRow : List String) (dataRows : List (List String)) (doc : Doc)
    (hok : reduce (headerRow :: dataRows) = Except.ok doc) :
    doc.nodes.length = headerRow.length - 1 ∧
      dictNodupKeys doc.correlations ∧
      (∀ a, a ∈ dictKeys doc.correlations ↔ ∃ r ∈ dataRows, r.head? = some a) ∧
      (∀ t r, dataRows.get? t = some r →
        ∃ name cells, r = name :: cells ∧
          ∃ inner, dictGet? doc.correlations name = some inner) := by
  obtain ⟨corr, hp, rfl⟩ := reduce_ok_iff.mp hok
  refine ⟨List.length_drop 1 headerRow, ?_, ?_, ?_⟩
  · exact processRows_ok_nodup (by simp [dictNodupKeys, dictKeys]) hp
  · intro a
    dsimp only
    rw [processRows_keys hp a]
    simp [dictKeys]
  · intro t r hrow
    have hr : r ∈ dataRows := List.get?_mem hrow
    have hne := processRows_rows_nonempty hp r hr
    cases r with
    | nil => exact absurd rfl hne
    | cons name cells =>
      refine ⟨name, cells, rfl, ?_⟩
      have hk : name ∈ dictKeys corr :=
        (processRows_keys hp name).mpr (Or.inr ⟨name :: cells, hr, rfl⟩)
      exact dictGet?_isSome_of_mem_keys hk

/-- C9 witness: the theorem at the Scenario A table. -/
theorem C9_shape_witness :
    docA.nodes.length = headerRowA.length - 1 ∧
      dictNodupKeys docA.correlations ∧
      (∀ a, a ∈ dictKeys docA.correlations ↔ ∃ r ∈ dataRowsA, r.head? = some a) ∧
      (∀ t r, dataRowsA.get? t = some r →
        ∃ name cells, r = name :: cells ∧
          ∃ inner, dictGet? docA.correlations name = some inner) :=
  C9_shape headerRowA dataRowsA docA (by rfl)

/-- C10: when several data rows share a first cell, the mapping holds a
single key for that name, and its inner mapping is the one computed, from an
empty dict, for the last such row; entries recorded for earlier rows with
the same label are discarded by the reinitialisation. -/
theorem C10_duplicate_rows (headerRow : List String) (dataRows : List (List String))
    (doc : Doc) (name : String) (t : Nat) (cells : List String)
    (hok : reduce (headerRow :: dataRows) = Except.ok doc)
    (hrow : dataRows.get? t = some (name :: cells))
    (hlast : ∀ t2 r2, t < t2 → dataRows.get? t2 = some r2 → r2.head? ≠ some name) :
    dictNodupKeys doc.correlations ∧
      ∃ inner, processCells (headerRow.drop 1) t cells 0 [] = Except.ok inner ∧
        dictGet? doc.correlations name = some inner := by
  obtain ⟨corr, hp, rfl⟩ := reduce_ok_iff.mp hok
  refine ⟨processRows_ok_nodup (by simp [dictNodupKeys, dictKeys]) hp, ?_⟩
  have h := processRows_last hp hrow hlast
  rwa [Nat.zero_add] at h

/-- C10 witness: two rows labelled A; the final entry for A is the empty
inner mapping computed from the last row, not the 0.5 entry of the first. -/
theorem C10_duplicate_rows_witness :
    dictNodupKeys (Doc.mk ["A", "B"] [("A", [])]).correlations ∧
      ∃ inner, processCells ["A", "B"] 1 ["", ""] 0 [] = Except.ok inner ∧
        dictGet? (Doc.mk ["A", "B"] [("A", [])]).correlations "A" = some inner :=
  C10_duplicate_rows ["", "A", "B"] [["A", "", "0.5"], ["A", "", ""]]
    (Doc.mk ["A", "B"] [("A", [])]) "A" 1 ["", ""] (by rfl) (by decide)
    (by
      intro t2 r2 hlt hget
      rw [List.get?_eq_none.mpr (by simpa using hlt :
        ([["A", "", "0.5"], ["A", "", ""]] : List (List String)).length ≤ t2)] at hget
      exact Option.noConfusion hget)

end CorrelCsv
